import Mathlib

/-!
Verification model of `scripts/fetch_short_term_holder_mvrv.py`.

The script is a linear pipeline: fetch → unwrap the response text → parse CSV →
resolve the date / MVRV-metric / price columns → coerce and filter rows → write
JSON.  The definitions below are shallow embeddings of the pure text- and
name-processing parts of that script: Python `str` values are modelled as
`String` (for column names) or `List Char` (for raw response text), Python
`dict` as an insertion-ordered association list, `None`/`NaN` as `Option`,
and each `raise RuntimeError` site as a constructor of `Err`.
-/

/-- Error sites of the script.  Each constructor corresponds to one
`raise RuntimeError(...)` in the source: empty response body, empty parsed
DataFrame, missing `Date` column, and failed metric-column resolution. -/
inductive Err where
  | emptyResponse
  | emptyParse
  | missingDateColumn
  | columnResolution
  deriving DecidableEq, Repr

deriving instance DecidableEq for Except

/-- Whitespace characters stripped by Python `str.strip()` (ASCII range; the
script's inputs are ASCII CSV text). -/
def pyIsSpace (c : Char) : Bool :=
  c == ' ' || c == '\t' || c == '\n' || c == '\r' || c == '\x0b' || c == '\x0c'

/-- Python `str.strip()` on a list of characters: drop leading and trailing
whitespace. -/
def pyStripChars (l : List Char) : List Char :=
  ((l.dropWhile pyIsSpace).reverse.dropWhile pyIsSpace).reverse

/-- Python `str.strip()` on a string. -/
def pyStrip (s : String) : String :=
  ⟨pyStripChars s.data⟩

/-- Python `str.lower()` (ASCII case mapping, which is all the script's
column names use). -/
def pyLower (s : String) : String :=
  ⟨s.data.map Char.toLower⟩

/-- The name normalization `str(c).strip().lower()` used throughout the
script (`_normalize_cols` and `_pick_mvrv_column`). -/
def normName (s : String) : String :=
  pyLower (pyStrip s)

/-- One step of building a Python dict by comprehension: if the key is already
present its value is overwritten in place (the key keeps its original
position); otherwise the pair is appended.  This is exactly CPython's
insertion-order semantics. -/
def insertLast (m : List (String × String)) (k v : String) : List (String × String) :=
  if m.any (fun p => p.1 == k) then
    m.map (fun p => if p.1 == k then (k, v) else p)
  else
    m ++ [(k, v)]

/-- `_normalize_cols(df)`: the dict comprehension
`{str(c).strip().lower(): c for c in df.columns}`, as an insertion-ordered
association list from normalized name to original column name. -/
def normalizeCols (cols : List String) : List (String × String) :=
  cols.foldl (fun m c => insertLast m (normName c) c) []

/-- Python `dict.get(k)`: the value stored under `k`, if any. -/
def lookupKV (m : List (String × String)) (k : String) : Option String :=
  (m.find? (fun p => p.1 == k)).map (fun p => p.2)

/-- The `excluded` set of `_pick_mvrv_column`: normalized names considered
structural rather than metric-bearing. -/
def excluded : List String :=
  ["date", "time", "timestamp", "price", "marketcap", "market_cap",
   "realized_cap", "realizedcap"]

/-- Does `pat` start the list `l`?  (Helper for the substring test.) -/
def startsWithSeq : List Char → List Char → Bool
  | [], _ => true
  | _ :: _, [] => false
  | p :: ps, c :: cs => p == c && startsWithSeq ps cs

/-- Does `l` contain `pat` as a contiguous run?  Models Python's
`pat in s` on strings. -/
def containsSeq (pat : List Char) : List Char → Bool
  | [] => startsWithSeq pat []
  | c :: rest => startsWithSeq pat (c :: rest) || containsSeq pat rest

/-- Python `sub in s` for strings. -/
def strContains (s sub : String) : Bool :=
  containsSeq sub.data s.data

/-- The `mvrv_candidates` list of `_pick_mvrv_column`: iterate the
normalized-name dict in insertion order and keep the original names of the
non-excluded entries whose normalized name contains `"mvrv"`. -/
def mvrvCandidates (cols : List String) : List String :=
  (normalizeCols cols).filterMap (fun p =>
    if excluded.contains p.1 then none
    else if strContains p.1 "mvrv" then some p.2 else none)

/-- The preference test of `_pick_mvrv_column`:
`"short" in lc or "sth" in lc` on the re-normalized candidate name. -/
def prefersShort (c : String) : Bool :=
  strContains (normName c) "short" || strContains (normName c) "sth"

/-- `_pick_mvrv_column(df)`.  With candidates, return the first preferred one
or else the first candidate (`preferred or mvrv_candidates[0]`, where Python's
`or` also rejects an empty-string `preferred` as falsy — the `if p = ""`
test); with no candidate, fall back to the first non-excluded dict entry; with
nothing left, raise. -/
def pickMvrvColumn (cols : List String) : Except Err String :=
  match mvrvCandidates cols with
  | c0 :: _ =>
    match (mvrvCandidates cols).find? prefersShort with
    | some p => .ok (if p = "" then c0 else p)
    | none => .ok c0
  | [] =>
    match (normalizeCols cols).find? (fun p => !(excluded.contains p.1)) with
    | some p => .ok p.2
    | none => .error .columnResolution

/-- The result of column resolution in `main`: the date column, the metric
column, and the optional price column. -/
structure ColMapping where
  dateCol : String
  mvrvCol : String
  priceCol : Option String
  deriving DecidableEq, Repr

/-- The column-resolution portion of `main`, for a successfully parsed
non-empty table with columns `cols`: first the guard
`if "Date" not in df.columns and "date" not in [str(c).lower() for c in df.columns]`
(note: `lower()` without `strip()`), then `date_col = colmap.get("date", "Date")`,
then `_pick_mvrv_column`, then `price_col = colmap.get("price", None)`. -/
def resolveColumns (cols : List String) : Except Err ColMapping :=
  if cols.contains "Date" || (cols.map pyLower).contains "date" then
    match pickMvrvColumn cols with
    | .error e => .error e
    | .ok mvrvCol =>
      .ok ⟨(lookupKV (normalizeCols cols) "date").getD "Date", mvrvCol,
        lookupKV (normalizeCols cols) "price"⟩
  else
    .error .missingDateColumn

/-- Python `s.replace("\\n", "\n")`: replace every two-character sequence
backslash-`n` by a newline, scanning left to right without overlap. -/
def replBsN : List Char → List Char
  | [] => []
  | [c] => [c]
  | c₁ :: c₂ :: rest =>
    if c₁ = '\\' ∧ c₂ = 'n' then '\n' :: replBsN rest
    else c₁ :: replBsN (c₂ :: rest)

/-- The quote-stripping step of `main`:
`if csv_quoted.startswith('"') and csv_quoted.endswith('"'): csv_quoted = csv_quoted[1:-1]`. -/
def stripQuotes (t : List Char) : List Char :=
  if t.head? = some '"' ∧ t.getLast? = some '"' then (t.drop 1).dropLast else t

/-- The unwrapping computation of `main` applied to the raw response text:
trim, strip a surrounding quote pair, replace the backslash-`n` escapes. -/
def unwrap (l : List Char) : List Char :=
  replBsN (stripQuotes (pyStripChars l))

/-- The text stage of `main`: `if not raw_text.strip(): raise` (empty
response), otherwise unwrap to CSV text. -/
def textStage (l : List Char) : Except Err (List Char) :=
  if pyStripChars l = [] then .error .emptyResponse else .ok (unwrap l)

/-- Numeric value of a digit run (helper for `parseDecimal`). -/
def digitsVal (l : List Char) : Nat :=
  l.foldl (fun a c => 10 * a + (c.toNat - '0'.toNat)) 0

/-- A plain decimal literal: an optional sign, a nonempty digit run, and an
optional nonempty fractional digit run.  Models the values accepted by
`pd.to_numeric(..., errors="coerce")` on the script's CSV cells; strings
outside this grammar coerce to NaN (`none`). -/
def parseDecimal (s : String) : Option ℚ :=
  let unsigned : List Char → Option ℚ := fun l =>
    let ip := l.takeWhile Char.isDigit
    let rest := l.dropWhile Char.isDigit
    if ip = [] then none
    else
      match rest with
      | [] => some (mkRat (digitsVal ip) 1)
      | '.' :: fp =>
        if fp ≠ [] ∧ fp.all Char.isDigit then
          some (mkRat (digitsVal ip * 10 ^ fp.length + digitsVal fp) (10 ^ fp.length))
        else none
      | _ => none
  match s.data with
  | '-' :: r => (unsigned r).map (fun q => -q)
  | '+' :: r => unsigned r
  | r => unsigned r

/-- `pd.to_numeric(cell, errors="coerce")` for a single cell: a missing cell
(NaN) stays NaN, an unparseable string coerces to NaN. -/
def toNumeric (c : Option String) : Option ℚ :=
  c.bind parseDecimal

/-- `Series.astype(str)` on one cell: pandas stringifies a missing value
(NaN) as the literal string `"nan"`. -/
def naToStr : Option String → String
  | none => "nan"
  | some s => s

/-- The cells of one parsed CSV row at the three resolved columns; `none` is
a missing field (NaN after `pd.read_csv`). -/
structure RowCells where
  dateCell : Option String
  metricCell : Option String
  priceCell : Option String
  deriving DecidableEq, Repr

/-- One output record `{date, sth_mvrv, price?}`. -/
structure OutputRecord where
  date : String
  sth_mvrv : ℚ
  price : Option ℚ
  deriving DecidableEq, Repr

/-- The row-processing portion of `main` for one row: the date column is
`astype(str)`-ed (so a missing date becomes the string `"nan"` and is never
dropped), the metric column is numerically coerced and the row is dropped when
that yields NaN (`dropna(subset=[date_col, mvrv_col])` can only fire on the
metric column, the date column being all strings by then), and when a price
column was resolved its value is attached iff it coerces to a number
(`pd.notna(row[price_col])`). -/
def processRow (hasPrice : Bool) (r : RowCells) : Option OutputRecord :=
  match toNumeric r.metricCell with
  | none => none
  | some m => some ⟨naToStr r.dateCell, m, if hasPrice then toNumeric r.priceCell else none⟩

/-- The spec's description of the metric candidates: the columns, in original
column order, whose normalized name is not excluded and contains `"mvrv"`.
(Stated from the spec's words, for comparison with `pickMvrvColumn`.) -/
def mvrvCandidatesSpec (cols : List String) : List String :=
  cols.filter (fun c => !(excluded.contains (normName c)) && strContains (normName c) "mvrv")

example : normName " Date " = "date" := by decide
example : pickMvrvColumn ["Date", "Price", "STH_MVRV"] = .ok "STH_MVRV" := by decide
example : pickMvrvColumn ["Date", "mvrv_30d", "short_term_holder_mvrv"] =
    .ok "short_term_holder_mvrv" := by decide
example : pickMvrvColumn ["Date", "Price", "MarketCap"] = .error .columnResolution := by decide
example : resolveColumns ["Date", "Price", "STH_MVRV"] =
    .ok ⟨"Date", "STH_MVRV", some "Price"⟩ := by decide
example : unwrap ('"' :: 'a' :: '\\' :: 'n' :: 'b' :: '"' :: []) = ['a', '\n', 'b'] := by decide
example : parseDecimal "1.5" = some (mkRat 3 2) := by decide
example : parseDecimal "abc" = none := by decide
example : processRow true ⟨some "2024-01-01", some "1.23", some "42000"⟩ =
    some ⟨"2024-01-01", mkRat 123 100, some (mkRat 42000 1)⟩ := by decide

/-! ### Lemmas about the unwrapping step -/

theorem replBsN_of_no_escape : ∀ l : List Char, containsSeq ['\\', 'n'] l = false → replBsN l = l
  | [], _ => rfl
  | [_], _ => rfl
  | c₁ :: c₂ :: rest, h => by
    rw [containsSeq] at h
    simp only [startsWithSeq, Bool.or_eq_false_iff, Bool.and_eq_false_iff] at h
    obtain ⟨h1, h2⟩ := h
    rw [replBsN, if_neg, replBsN_of_no_escape (c₂ :: rest) h2]
    rintro ⟨rfl, rfl⟩
    simp at h1

theorem replBsN_append_escape :
    ∀ l₁ l₂ : List Char, replBsN (l₁ ++ '\\' :: 'n' :: l₂) = replBsN l₁ ++ '\n' :: replBsN l₂
  | [], l₂ => by
    show replBsN ('\\' :: 'n' :: l₂) = '\n' :: replBsN l₂
    rw [replBsN, if_pos ⟨rfl, rfl⟩]
  | [c], l₂ => by
    show replBsN (c :: '\\' :: 'n' :: l₂) = c :: '\n' :: replBsN l₂
    rw [replBsN, if_neg (fun h => absurd h.2 (by decide)), replBsN, if_pos ⟨rfl, rfl⟩]
  | c₁ :: c₂ :: l₁, l₂ => by
    show replBsN (c₁ :: c₂ :: (l₁ ++ '\\' :: 'n' :: l₂)) =
      replBsN (c₁ :: c₂ :: l₁) ++ '\n' :: replBsN l₂
    by_cases h : c₁ = '\\' ∧ c₂ = 'n'
    · obtain ⟨rfl, rfl⟩ := h
      rw [replBsN, if_pos ⟨rfl, rfl⟩, replBsN_append_escape l₁ l₂,
        replBsN, if_pos ⟨rfl, rfl⟩]
      simp
    · rw [replBsN, if_neg h,
        show c₂ :: (l₁ ++ '\\' :: 'n' :: l₂) = (c₂ :: l₁) ++ '\\' :: 'n' :: l₂ from rfl,
        replBsN_append_escape (c₂ :: l₁) l₂, replBsN, if_neg h]
      simp

/-- C3 (counterexample): on the plain CSV text `a,b` followed by a newline —
not quote-wrapped and containing no backslash-`n` — the unwrapper does not
return its input: `main` strips surrounding whitespace first, so the trailing
newline is removed. -/
theorem c3_unwrapper_identity_counterexample :
    ¬((['a', ',', 'b', '\n'] : List Char).head? = some '"' ∧
        (['a', ',', 'b', '\n'] : List Char).getLast? = some '"')
    ∧ containsSeq ['\\', 'n'] ['a', ',', 'b', '\n'] = false
    ∧ unwrap ['a', ',', 'b', '\n'] ≠ ['a', ',', 'b', '\n'] := by decide

/-- C3 (amended): for every input text that is unchanged by whitespace
trimming, does not both start and end with a double quote, and contains no
backslash-`n` sequence, the unwrapper's output equals its input. -/
theorem c3_unwrapper_identity_on_plain_text (l : List Char)
    (hstrip : pyStripChars l = l)
    (hquote : ¬(l.head? = some '"' ∧ l.getLast? = some '"'))
    (hesc : containsSeq ['\\', 'n'] l = false) :
    unwrap l = l := by
  unfold unwrap
  rw [hstrip, stripQuotes, if_neg hquote]
  exact replBsN_of_no_escape l hesc

/-- C3 (witness): the amended theorem applied to the concrete plain text
`a,b`. -/
theorem c3_unwrapper_identity_witness : unwrap ['a', ',', 'b'] = ['a', ',', 'b'] :=
  c3_unwrapper_identity_on_plain_text ['a', ',', 'b'] (by decide) (by decide) (by decide)

/-- C7 (counterexample): on the raw text consisting of one double-quote
character, the trimmed text begins and ends with a double quote, yet the
unwrapper does not remove one leading and one trailing quote (that would
require two characters): it produces the empty text from the single
character. -/
theorem c7_quote_strip_counterexample :
    (pyStripChars ['"']).head? = some '"'
    ∧ (pyStripChars ['"']).getLast? = some '"'
    ∧ '"' :: (stripQuotes (pyStripChars ['"']) ++ ['"']) ≠ pyStripChars ['"']
    ∧ unwrap ['"'] = [] := by decide

/-- C7 (amended): for every raw response text, (1) if the trimmed text has at
least two characters and begins and ends with a double quote, exactly one
leading and one trailing quote are removed (re-attaching them restores the
trimmed text); (2) every backslash-`n` occurrence in the quote-stripped text
is replaced by a newline, acting locally at each occurrence; (3) no other
decoding happens: text without backslash-`n` passes through verbatim. -/
theorem c7_unwrap_spec (s : List Char) :
    (2 ≤ (pyStripChars s).length → (pyStripChars s).head? = some '"' →
        (pyStripChars s).getLast? = some '"' →
        '"' :: (stripQuotes (pyStripChars s) ++ ['"']) = pyStripChars s)
    ∧ (∀ l₁ l₂ : List Char, stripQuotes (pyStripChars s) = l₁ ++ '\\' :: 'n' :: l₂ →
        unwrap s = replBsN l₁ ++ '\n' :: replBsN l₂)
    ∧ (containsSeq ['\\', 'n'] (stripQuotes (pyStripChars s)) = false →
        unwrap s = stripQuotes (pyStripChars s)) := by
  refine ⟨?_, ?_, ?_⟩
  · intro hlen hh hl
    rcases hcase : pyStripChars s with _ | ⟨a, t'⟩
    · rw [hcase] at hlen
      simp at hlen
    · rw [hcase] at hlen hh hl
      simp only [List.head?_cons, Option.some.injEq] at hh
      subst hh
      have ht'ne : t' ≠ [] := by
        intro h
        subst h
        simp at hlen
      have hlast : t'.getLast? = some '"' := by
        rcases t' with _ | ⟨b, t''⟩
        · exact absurd rfl ht'ne
        · simpa [List.getLast?_cons_cons] using hl
      have hmem : '"' ∈ t'.getLast? := by
        rw [hlast]
        rfl
      rw [stripQuotes, if_pos ⟨rfl, hl⟩]
      simp only [List.drop_succ_cons, List.drop_zero]
      rw [List.dropLast_append_getLast? '"' hmem]
  · intro l₁ l₂ hdec
    unfold unwrap
    rw [hdec, replBsN_append_escape]
  · intro h
    unfold unwrap
    exact replBsN_of_no_escape _ h

/-- C7 (witness): the amended theorem applied to the quoted escaped text
`"a\nb"` (for the quote-stripping and escape-replacement parts) and to the
plain text `x` (for the no-other-decoding part). -/
theorem c7_unwrap_spec_witness :
    '"' :: (stripQuotes (pyStripChars ['"', 'a', '\\', 'n', 'b', '"']) ++ ['"'])
      = pyStripChars ['"', 'a', '\\', 'n', 'b', '"']
    ∧ unwrap ['"', 'a', '\\', 'n', 'b', '"'] = replBsN ['a'] ++ '\n' :: replBsN ['b']
    ∧ unwrap ['x'] = stripQuotes (pyStripChars ['x']) :=
  ⟨(c7_unwrap_spec ['"', 'a', '\\', 'n', 'b', '"']).1 (by decide) (by decide) (by decide),
   (c7_unwrap_spec ['"', 'a', '\\', 'n', 'b', '"']).2.1 ['a'] ['b'] (by decide),
   (c7_unwrap_spec ['x']).2.2 (by decide)⟩

/-- C8 (confirmed): for every response body that is empty after trimming
whitespace, the text stage raises the empty-response error, and no downstream
parsing can change that: composing with an arbitrary parsing continuation
still yields the empty-response error. -/
theorem c8_empty_response (l : List Char) (h : pyStripChars l = []) :
    textStage l = Except.error Err.emptyResponse
    ∧ ∀ (α : Type) (parseCsv : List Char → Except Err α),
        (textStage l).bind parseCsv = Except.error Err.emptyResponse := by
  have ht : textStage l = .error .emptyResponse := by
    rw [textStage, if_pos h]
  exact ⟨ht, fun α parseCsv => by rw [ht]; rfl⟩

/-- C8 (witness): the theorem applied to the whitespace-only body of a space
and a newline, with a concrete parsing continuation. -/
theorem c8_empty_response_witness :
    textStage [' ', '\n'] = Except.error Err.emptyResponse
    ∧ (textStage [' ', '\n']).bind (fun csv => Except.ok csv.length)
        = Except.error Err.emptyResponse :=
  ⟨(c8_empty_response [' ', '\n'] (by decide)).1,
   (c8_empty_response [' ', '\n'] (by decide)).2 Nat (fun csv => Except.ok csv.length)⟩


/-! ### Lemmas about the normalized-name dictionary -/

theorem lookupKV_cons (p : String × String) (m : List (String × String)) (k : String) :
    lookupKV (p :: m) k = if p.1 == k then some p.2 else lookupKV m k := by
  by_cases h : (p.1 == k) = true <;> simp [lookupKV, List.find?_cons, h]

theorem lookupKV_map_update (m : List (String × String)) (k' v k : String) (hk : k ≠ k') :
    lookupKV (m.map (fun p => if p.1 == k' then (k', v) else p)) k = lookupKV m k := by
  induction m with
  | nil => rfl
  | cons p m ih =>
    rw [List.map_cons]
    by_cases hp : (p.1 == k') = true
    · have hp1 : p.1 = k' := by simpa using hp
      rw [if_pos hp, lookupKV_cons, lookupKV_cons,
        if_neg (show ¬(((k', v).1 == k) = true) by simp; exact fun h => hk h.symm),
        if_neg (show ¬((p.1 == k) = true) by simp [hp1]; exact fun h => hk h.symm), ih]
    · rw [if_neg hp, lookupKV_cons, lookupKV_cons, ih]

theorem lookupKV_map_update_self (m : List (String × String)) (k v : String)
    (hany : (m.any fun p => p.1 == k) = true) :
    lookupKV (m.map (fun p => if p.1 == k then (k, v) else p)) k = some v := by
  induction m with
  | nil => simp at hany
  | cons p m ih =>
    rw [List.map_cons]
    by_cases hp : (p.1 == k) = true
    · rw [if_pos hp, lookupKV_cons, if_pos (show (((k, v) : String × String).1 == k) = true by simp)]
    · have hany' : (m.any fun p => p.1 == k) = true := by
        rw [List.any_cons] at hany
        rcases Bool.or_eq_true_iff.mp hany with h | h
        · exact absurd h hp
        · exact h
      rw [if_neg hp, lookupKV_cons, if_neg hp]
      exact ih hany'

theorem lookupKV_append_single (m : List (String × String)) (k' v k : String)
    (hall : ∀ p ∈ m, (p.1 == k') = false) :
    lookupKV (m ++ [(k', v)]) k = if k = k' then some v else lookupKV m k := by
  induction m with
  | nil =>
    rw [List.nil_append, lookupKV_cons]
    by_cases hkk : k = k'
    · subst hkk
      rw [if_pos (show ((k, v).1 == k) = true by simp), if_pos rfl]
    · rw [if_neg (show ¬(((k', v).1 == k) = true) by simp; exact fun h => hkk h.symm),
        if_neg hkk]
  | cons p m ih =>
    have htail : ∀ q ∈ m, (q.1 == k') = false := fun q hq => hall q (List.mem_cons_of_mem p hq)
    rw [List.cons_append, lookupKV_cons, lookupKV_cons]
    by_cases hpk : (p.1 == k) = true
    · have hp1 : p.1 = k := by simpa using hpk
      have hp2 : p.1 ≠ k' := by simpa using hall p (List.mem_cons_self p m)
      have hkk : ¬ k = k' := fun h => hp2 (hp1.trans h)
      rw [if_pos hpk, if_neg hkk, if_pos hpk]
    · by_cases hkk : k = k'
      · rw [if_neg hpk, ih htail, if_pos hkk, if_pos hkk]
      · rw [if_neg hpk, ih htail, if_neg hkk, if_neg hkk, if_neg hpk]

theorem lookupKV_insertLast (m : List (String × String)) (k' v k : String) :
    lookupKV (insertLast m k' v) k = if k = k' then some v else lookupKV m k := by
  rw [insertLast]
  by_cases hany : (m.any fun p => p.1 == k') = true
  · rw [if_pos hany]
    by_cases hkk : k = k'
    · subst hkk
      rw [if_pos rfl, lookupKV_map_update_self m k v hany]
    · rw [if_neg hkk, lookupKV_map_update m k' v k hkk]
  · rw [if_neg hany]
    apply lookupKV_append_single
    intro p hp
    cases h : (p.1 == k') with
    | false => rfl
    | true => exact absurd (List.any_eq_true.mpr ⟨p, hp, h⟩) hany

theorem normalizeCols_concat (cols : List String) (c : String) :
    normalizeCols (cols ++ [c]) = insertLast (normalizeCols cols) (normName c) c := by
  simp [normalizeCols, List.foldl_append]

/-- The dict built by `_normalize_cols` answers lookups like a right-to-left
search of the column list: the value stored under `k` is the last column
whose normalized name is `k`. -/
theorem lookupKV_normalizeCols (cols : List String) (k : String) :
    lookupKV (normalizeCols cols) k = cols.reverse.find? (fun c => normName c == k) := by
  induction cols using List.reverseRecOn with
  | nil => rfl
  | append_singleton cols c ih =>
    rw [normalizeCols_concat, lookupKV_insertLast, List.reverse_append]
    simp only [List.reverse_cons, List.reverse_nil, List.nil_append, List.singleton_append,
      List.find?_cons]
    by_cases hkk : k = normName c
    · rw [if_pos hkk, show (normName c == k) = true by simp [hkk]]
    · rw [if_neg hkk, show (normName c == k) = false by simp; exact fun h => hkk h.symm, ih]

theorem mem_insertLast {m : List (String × String)} {k v k' v' : String}
    (h : (k, v) ∈ insertLast m k' v') : (k, v) ∈ m ∨ (k = k' ∧ v = v') := by
  rw [insertLast] at h
  by_cases hany : (m.any fun p => p.1 == k') = true
  · rw [if_pos hany] at h
    obtain ⟨p, hp, hfp⟩ := List.mem_map.mp h
    by_cases hpk : (p.1 == k') = true
    · rw [if_pos hpk] at hfp
      right
      have h2 := (Prod.mk.injEq _ _ _ _).mp hfp
      exact ⟨h2.1.symm, h2.2.symm⟩
    · rw [if_neg hpk] at hfp
      left
      rwa [← hfp]
  · rw [if_neg hany] at h
    rcases List.mem_append.mp h with h' | h'
    · exact Or.inl h'
    · right
      have := List.mem_singleton.mp h'
      exact ⟨((Prod.mk.injEq _ _ _ _).mp this).1, ((Prod.mk.injEq _ _ _ _).mp this).2⟩

theorem mem_normalizeCols_aux :
    ∀ (cols : List String) (m : List (String × String)) {k v : String},
      (k, v) ∈ cols.foldl (fun m c => insertLast m (normName c) c) m →
      (k, v) ∈ m ∨ (normName v = k ∧ v ∈ cols)
  | [], _, _, _, h => Or.inl h
  | c :: cols, m, k, v, h => by
    rcases mem_normalizeCols_aux cols (insertLast m (normName c) c) h with h' | h'
    · rcases mem_insertLast h' with h'' | ⟨rfl, rfl⟩
      · exact Or.inl h''
      · exact Or.inr ⟨rfl, List.mem_cons_self _ _⟩
    · exact Or.inr ⟨h'.1, List.mem_cons_of_mem _ h'.2⟩

/-- Every entry of the `_normalize_cols` dict maps the normalized name of a
column of the table to that column. -/
theorem mem_normalizeCols {cols : List String} {k v : String}
    (h : (k, v) ∈ normalizeCols cols) : normName v = k ∧ v ∈ cols := by
  rcases mem_normalizeCols_aux cols [] h with h' | h'
  · simp at h'
  · exact h'

theorem keys_insertLast_of_any (m : List (String × String)) (k v : String)
    (h : (m.any fun p => p.1 == k) = true) :
    (insertLast m k v).map Prod.fst = m.map Prod.fst := by
  rw [insertLast, if_pos h, List.map_map]
  apply List.map_congr_left
  intro p _
  by_cases hpk : (p.1 == k) = true
  · simp only [Function.comp, if_pos hpk]
    exact (by simpa using hpk : p.1 = k).symm
  · simp only [Function.comp, if_neg hpk]

theorem keys_insertLast_of_not_any (m : List (String × String)) (k v : String)
    (h : ¬(m.any fun p => p.1 == k) = true) :
    (insertLast m k v).map Prod.fst = m.map Prod.fst ++ [k] := by
  rw [insertLast, if_neg h, List.map_append]
  rfl

theorem keys_nodup_insertLast (m : List (String × String)) (k v : String)
    (h : (m.map Prod.fst).Nodup) : ((insertLast m k v).map Prod.fst).Nodup := by
  by_cases hany : (m.any fun p => p.1 == k) = true
  · rwa [keys_insertLast_of_any m k v hany]
  · rw [keys_insertLast_of_not_any m k v hany]
    have hk : k ∉ m.map Prod.fst := by
      intro hmem
      obtain ⟨p, hp, hpk⟩ := List.mem_map.mp hmem
      exact hany (List.any_eq_true.mpr ⟨p, hp, by simp [hpk]⟩)
    simp [List.nodup_append, h, hk]

/-- The `_normalize_cols` dict has no duplicate keys. -/
theorem keys_nodup_normalizeCols (cols : List String) :
    ((normalizeCols cols).map Prod.fst).Nodup := by
  suffices h : ∀ (cols : List String) (m : List (String × String)),
      (m.map Prod.fst).Nodup →
      ((cols.foldl (fun m c => insertLast m (normName c) c) m).map Prod.fst).Nodup by
    exact h cols [] (by simp)
  intro cols
  induction cols with
  | nil => exact fun _ hm => hm
  | cons c cols ih => exact fun m hm => ih _ (keys_nodup_insertLast _ _ _ hm)

theorem lookupKV_eq_some_of_mem {m : List (String × String)} {k v : String}
    (hnd : (m.map Prod.fst).Nodup) (h : (k, v) ∈ m) : lookupKV m k = some v := by
  induction m with
  | nil => simp at h
  | cons p m ih =>
    rw [List.map_cons, List.nodup_cons] at hnd
    rw [lookupKV_cons]
    rcases List.mem_cons.mp h with rfl | hm
    · rw [if_pos (by simp)]
    · by_cases hpk : (p.1 == k) = true
      · exfalso
        have hk : k ∈ m.map Prod.fst := List.mem_map.mpr ⟨(k, v), hm, rfl⟩
        exact hnd.1 (by rwa [show p.1 = k from by simpa using hpk])
      · rw [if_neg hpk]
        exact ih hnd.2 hm

theorem mem_of_lookupKV_eq_some {m : List (String × String)} {k v : String}
    (h : lookupKV m k = some v) : (k, v) ∈ m := by
  rw [lookupKV] at h
  cases hf : m.find? (fun p => p.1 == k) with
  | none => rw [hf] at h; simp at h
  | some p =>
    rw [hf] at h
    simp at h
    have hp : p.1 = k := by simpa using List.find?_some hf
    have hpm := List.mem_of_find?_eq_some hf
    have : p = (k, v) := by
      cases p
      simp_all
    rwa [this] at hpm

theorem mem_mvrvCandidates {cols : List String} {c : String} (h : c ∈ mvrvCandidates cols) :
    ∃ k, (k, c) ∈ normalizeCols cols ∧ excluded.contains k = false
      ∧ strContains k "mvrv" = true := by
  obtain ⟨p, hp, hfp⟩ := List.mem_filterMap.mp h
  by_cases h1 : (excluded.contains p.1) = true
  · rw [if_pos h1] at hfp
    exact absurd hfp (by simp)
  · rw [if_neg h1] at hfp
    by_cases h2 : (strContains p.1 "mvrv") = true
    · rw [if_pos h2] at hfp
      refine ⟨p.1, ?_, by simpa using h1, h2⟩
      have hpc : p.2 = c := by simpa using hfp
      rw [← hpc]
      exact Prod.mk.eta.symm ▸ hp
    · rw [if_neg h2] at hfp
      exact absurd hfp (by simp)

/-- Any metric column returned by `_pick_mvrv_column` is the value of a dict
entry whose key (its normalized name) is not in the exclusion set. -/
theorem pickMvrvColumn_ok_notExcluded {cols : List String} {m : String}
    (h : pickMvrvColumn cols = .ok m) :
    ∃ k, (k, m) ∈ normalizeCols cols ∧ excluded.contains k = false := by
  rw [pickMvrvColumn] at h
  cases hcand : mvrvCandidates cols with
  | cons c0 rest =>
    rw [hcand] at h
    dsimp only at h
    cases hfind : (c0 :: rest).find? prefersShort with
    | some p =>
      rw [hfind] at h
      dsimp only at h
      simp only [Except.ok.injEq] at h
      have hc0 : c0 ∈ mvrvCandidates cols := by
        rw [hcand]
        exact List.mem_cons_self _ _
      have hpmem : p ∈ mvrvCandidates cols := by
        rw [hcand]
        exact List.mem_of_find?_eq_some hfind
      have hm : m ∈ mvrvCandidates cols := by
        by_cases hp0 : p = ""
        · rw [if_pos hp0] at h
          rw [← h]
          exact hc0
        · rw [if_neg hp0] at h
          rw [← h]
          exact hpmem
      obtain ⟨k, hk1, hk2, _⟩ := mem_mvrvCandidates hm
      exact ⟨k, hk1, hk2⟩
    | none =>
      rw [hfind] at h
      dsimp only at h
      simp only [Except.ok.injEq] at h
      have hm : m ∈ mvrvCandidates cols := by
        rw [hcand, ← h]
        exact List.mem_cons_self _ _
      obtain ⟨k, hk1, hk2, _⟩ := mem_mvrvCandidates hm
      exact ⟨k, hk1, hk2⟩
  | nil =>
    rw [hcand] at h
    dsimp only at h
    cases hfind : (normalizeCols cols).find? (fun p => !(excluded.contains p.1)) with
    | some p =>
      rw [hfind] at h
      dsimp only at h
      simp only [Except.ok.injEq] at h
      have hpred := List.find?_some hfind
      have hmem := List.mem_of_find?_eq_some hfind
      refine ⟨p.1, ?_, by simpa using hpred⟩
      rw [← h]
      exact Prod.mk.eta.symm ▸ hmem
    | none =>
      rw [hfind] at h
      exact absurd h (by simp)

/-- C9 (confirmed): whenever resolution succeeds, the metric column differs
from the date column and from the price column: the normalized names `date`
and `price` are in the exclusion set, every metric candidate's normalized
name is not, and the date and price columns always normalize to `date` and
`price` respectively. -/
theorem c9_metric_column_distinct (cols : List String) (d m : String) (p : Option String)
    (h : resolveColumns cols = .ok ⟨d, m, p⟩) :
    m ≠ d ∧ ∀ pc : String, p = some pc → m ≠ pc := by
  rw [resolveColumns] at h
  by_cases hguard : (cols.contains "Date" || (cols.map pyLower).contains "date") = true
  · rw [if_pos hguard] at h
    cases hpick : pickMvrvColumn cols with
    | error e =>
      rw [hpick] at h
      exact absurd h (by simp)
    | ok mv =>
      rw [hpick] at h
      dsimp only at h
      simp only [Except.ok.injEq, ColMapping.mk.injEq] at h
      obtain ⟨hd, hm, hp⟩ := h
      rw [hm] at hpick
      obtain ⟨k, hkmem, hkex⟩ := pickMvrvColumn_ok_notExcluded hpick
      obtain ⟨hnorm, -⟩ := mem_normalizeCols hkmem
      have hmd : normName m ≠ "date" := by
        intro hh
        rw [hnorm] at hh
        subst hh
        exact absurd hkex (by decide)
      have hmp : normName m ≠ "price" := by
        intro hh
        rw [hnorm] at hh
        subst hh
        exact absurd hkex (by decide)
      constructor
      · have hdnorm : normName d = "date" := by
          rw [← hd]
          cases hdl : lookupKV (normalizeCols cols) "date" with
          | none => simp [hdl]; decide
          | some v =>
            have hv := (mem_normalizeCols (mem_of_lookupKV_eq_some hdl)).1
            simp [hdl, hv]
        intro hh
        exact hmd (by rw [hh, hdnorm])
      · intro pc hpc hh
        have hmem : ("price", pc) ∈ normalizeCols cols :=
          mem_of_lookupKV_eq_some (by rw [hp, hpc])
        have h2 := (mem_normalizeCols hmem).1
        exact hmp (by rw [hh, h2])
  · rw [if_neg hguard] at h
    exact absurd h (by simp)

/-- C9 (witness): the theorem applied to the table `Date, Price, STH_MVRV`. -/
theorem c9_metric_column_distinct_witness :
    resolveColumns ["Date", "Price", "STH_MVRV"] = .ok ⟨"Date", "STH_MVRV", some "Price"⟩
    ∧ "STH_MVRV" ≠ "Date" ∧ "STH_MVRV" ≠ "Price" := by
  have h : resolveColumns ["Date", "Price", "STH_MVRV"] =
      .ok ⟨"Date", "STH_MVRV", some "Price"⟩ := by decide
  obtain ⟨h1, h2⟩ := c9_metric_column_distinct _ _ _ _ h
  exact ⟨h, h1, h2 "Price" rfl⟩

/-- Inversion for a successful resolution: the three components come from the
date lookup (with literal fallback `"Date"`), `_pick_mvrv_column`, and the
price lookup. -/
theorem resolveColumns_ok_parts {cols : List String} {d m : String} {p : Option String}
    (h : resolveColumns cols = .ok ⟨d, m, p⟩) :
    (lookupKV (normalizeCols cols) "date").getD "Date" = d
    ∧ pickMvrvColumn cols = .ok m
    ∧ lookupKV (normalizeCols cols) "price" = p := by
  rw [resolveColumns] at h
  by_cases hguard : (cols.contains "Date" || (cols.map pyLower).contains "date") = true
  · rw [if_pos hguard] at h
    cases hpick : pickMvrvColumn cols with
    | error e =>
      rw [hpick] at h
      exact absurd h (by simp)
    | ok mv =>
      rw [hpick] at h
      dsimp only at h
      simp only [Except.ok.injEq, ColMapping.mk.injEq] at h
      refine ⟨h.1, ?_, h.2.2⟩
      rw [h.2.1]
  · rw [if_neg hguard] at h
    exact absurd h (by simp)

/-- C10 (confirmed): when a column `x` is followed later in the column list by
a distinct column `y` with the same normalized name, the `_normalize_cols`
lookup of that name returns a later column (in fact the last column of that
name: the lookup behaves as a right-to-left search), and `x` is invisible to
date, metric and price resolution: a successful resolution never selects
`x`. -/
theorem c10_duplicate_shadowing (l₁ l₂ : List String) (x y : String)
    (hy : y ∈ l₂) (hnorm : normName y = normName x) (hx : x ∉ l₂) :
    (∃ z, lookupKV (normalizeCols (l₁ ++ x :: l₂)) (normName x) = some z
        ∧ z ∈ l₂ ∧ normName z = normName x)
    ∧ lookupKV (normalizeCols (l₁ ++ x :: l₂)) (normName x)
        = (l₁ ++ x :: l₂).reverse.find? (fun c => normName c == normName x)
    ∧ ∀ d m p, resolveColumns (l₁ ++ x :: l₂) = .ok ⟨d, m, p⟩ →
        d ≠ x ∧ m ≠ x ∧ p ≠ some x := by
  have hsome : (l₂.reverse.find? (fun c => normName c == normName x)).isSome := by
    rw [List.find?_isSome]
    exact ⟨y, List.mem_reverse.mpr hy, by simp [hnorm]⟩
  obtain ⟨z, hz⟩ := Option.isSome_iff_exists.mp hsome
  have hmemz : z ∈ l₂ := List.mem_reverse.mp (List.mem_of_find?_eq_some hz)
  have hzx : z ≠ x := fun hh => hx (hh ▸ hmemz)
  have hnz : normName z = normName x := by simpa using List.find?_some hz
  have hlook : lookupKV (normalizeCols (l₁ ++ x :: l₂)) (normName x) = some z := by
    rw [lookupKV_normalizeCols, List.reverse_append, List.reverse_cons, List.append_assoc,
      List.find?_append, hz]
    rfl
  refine ⟨⟨z, hlook, hmemz, hnz⟩, ?_, ?_⟩
  · rw [lookupKV_normalizeCols]
  · intro d m p h
    obtain ⟨hd, hpick, hp⟩ := resolveColumns_ok_parts h
    refine ⟨?_, ?_, ?_⟩
    · intro hdx
      cases hdl : lookupKV (normalizeCols (l₁ ++ x :: l₂)) "date" with
      | some v =>
        rw [hdl] at hd
        simp only [Option.getD_some] at hd
        have hv := mem_normalizeCols (mem_of_lookupKV_eq_some hdl)
        have hnx : normName x = "date" := by
          rw [← hv.1, hd.trans hdx]
        rw [hnx] at hlook
        rw [hdl] at hlook
        have hzv : z = v := by simpa using hlook.symm
        exact hzx (hzv.trans (hd.trans hdx))
      | none =>
        rw [hdl] at hd
        simp only [Option.getD_none] at hd
        have hnx : normName x = "date" := by
          rw [← hdx, ← hd]
          decide
        rw [hnx] at hlook
        rw [hdl] at hlook
        exact absurd hlook (by simp)
    · intro hmx
      obtain ⟨k, hkmem, -⟩ := pickMvrvColumn_ok_notExcluded hpick
      have hk := mem_normalizeCols hkmem
      have : lookupKV (normalizeCols (l₁ ++ x :: l₂)) k = some m :=
        lookupKV_eq_some_of_mem (keys_nodup_normalizeCols _) hkmem
      rw [← hk.1, hmx] at this
      rw [hlook] at this
      exact hzx (by simpa using this)
    · intro hpx
      rw [hpx] at hp
      have hmem := mem_normalizeCols (mem_of_lookupKV_eq_some hp)
      have hnx : normName x = "price" := hmem.1
      rw [hnx] at hlook
      rw [hp] at hlook
      exact hzx (by simpa using hlook.symm)

/-- C10 (witness): the theorem applied to the column list
`"MVRV ", "MVRV", "Date", "mvrv"`, where the earlier duplicate `"MVRV"` is
shadowed by the later column `"mvrv"` with the same normalized name. -/
theorem c10_duplicate_shadowing_witness :
    (∃ z, lookupKV (normalizeCols (["MVRV "] ++ "MVRV" :: ["Date", "mvrv"]))
        (normName "MVRV") = some z ∧ z ∈ ["Date", "mvrv"] ∧ normName z = normName "MVRV")
    ∧ ∀ d m p, resolveColumns (["MVRV "] ++ "MVRV" :: ["Date", "mvrv"]) = .ok ⟨d, m, p⟩ →
        d ≠ "MVRV" ∧ m ≠ "MVRV" ∧ p ≠ some "MVRV" := by
  have h := c10_duplicate_shadowing ["MVRV "] ["Date", "mvrv"] "MVRV" "mvrv"
    (by decide) (by decide) (by decide)
  exact ⟨h.1, h.2.2⟩

theorem pyStripChars_of_no_space (l : List Char) (h : ∀ ch ∈ l, pyIsSpace ch = false) :
    pyStripChars l = l := by
  have h1 : ∀ (l' : List Char), (∀ ch ∈ l', pyIsSpace ch = false) →
      l'.dropWhile pyIsSpace = l' := by
    intro l' hl'
    cases l' with
    | nil => rfl
    | cons a t =>
      rw [List.dropWhile_cons, if_neg (by simp [hl' a (List.mem_cons_self a t)])]
  rw [pyStripChars, h1 l h, h1 l.reverse (fun ch hch => h ch (List.mem_reverse.mp hch)),
    List.reverse_reverse]

/-- A column whose `lower()`-ed name is exactly `date` also has normalized
(stripped and lowered) name `date`: none of its four characters can be
whitespace. -/
theorem normName_eq_of_pyLower_eq_date {c : String} (h : pyLower c = "date") :
    normName c = "date" := by
  obtain ⟨cd⟩ := c
  have hdata : cd.map Char.toLower = ['d', 'a', 't', 'e'] := by
    have h2 := congrArg String.data h
    simpa [pyLower] using h2
  have hns : ∀ ch ∈ cd, pyIsSpace ch = false := by
    intro ch hch
    have hmem : Char.toLower ch ∈ ['d', 'a', 't', 'e'] := by
      rw [← hdata]
      exact List.mem_map_of_mem _ hch
    cases hsp : pyIsSpace ch with
    | false => rfl
    | true =>
      exfalso
      have hc6 : ch = ' ' ∨ ch = '\t' ∨ ch = '\n' ∨ ch = '\r' ∨ ch = '\x0b' ∨ ch = '\x0c' := by
        simpa [pyIsSpace, or_assoc] using hsp
      rcases hc6 with rfl | rfl | rfl | rfl | rfl | rfl <;> exact absurd hmem (by decide)
  rw [normName, pyStrip, show (String.mk cd).data = cd from rfl,
    pyStripChars_of_no_space cd hns]
  exact h

/-- C2 (confirmed): the date column is resolved by looking up the normalized
name `date`; when no column's trimmed lower-cased name is `date` the program
fails with the missing-`Date`-column error, and whenever resolution succeeds
the chosen date column's normalized name is `date` — no other column is ever
substituted. -/
theorem c2_date_resolution (cols : List String) :
    ((∀ c ∈ cols, normName c ≠ "date") →
        resolveColumns cols = .error .missingDateColumn)
    ∧ (∀ d m p, resolveColumns cols = .ok ⟨d, m, p⟩ → normName d = "date") := by
  constructor
  · intro hnone
    have hguard : (cols.contains "Date" || (cols.map pyLower).contains "date") = false := by
      rw [Bool.or_eq_false_iff]
      constructor
      · cases hc : cols.contains "Date" with
        | false => rfl
        | true =>
          exfalso
          have hmem : "Date" ∈ cols := by simpa using hc
          exact hnone "Date" hmem (by decide)
      · cases hc : (cols.map pyLower).contains "date" with
        | false => rfl
        | true =>
          exfalso
          have hmem : "date" ∈ cols.map pyLower := by simpa using hc
          obtain ⟨c, hcm, hlc⟩ := List.mem_map.mp hmem
          exact hnone c hcm (normName_eq_of_pyLower_eq_date hlc)
    rw [resolveColumns, if_neg (by rw [hguard]; simp)]
  · intro d m p h
    obtain ⟨hd, -, -⟩ := resolveColumns_ok_parts h
    rw [← hd]
    cases hdl : lookupKV (normalizeCols cols) "date" with
    | none => decide
    | some v =>
      have hv := (mem_normalizeCols (mem_of_lookupKV_eq_some hdl)).1
      simpa using hv

/-- C2 (witness): the failure part applied to the table `Time, Value` and the
no-substitution part applied to the table `Date, MVRV`. -/
theorem c2_date_resolution_witness :
    resolveColumns ["Time", "Value"] = .error .missingDateColumn
    ∧ normName "Date" = "date" := by
  refine ⟨(c2_date_resolution ["Time", "Value"]).1 (by decide), ?_⟩
  have h : resolveColumns ["Date", "MVRV"] = .ok ⟨"Date", "MVRV", none⟩ := by decide
  exact (c2_date_resolution ["Date", "MVRV"]).2 "Date" "MVRV" none h

/-! ### The resolver on tables with pairwise-distinct normalized names -/

/-- When no two columns share a normalized name, the `_normalize_cols` dict
is just the column list paired with its normalized names, in original
order. -/
theorem normalizeCols_eq_map {cols : List String} (h : (cols.map normName).Nodup) :
    normalizeCols cols = cols.map (fun c => (normName c, c)) := by
  induction cols using List.reverseRecOn with
  | nil => rfl
  | append_singleton cols c ih =>
    rw [List.map_append] at h
    have hna := List.nodup_append.mp h
    have hnotin : normName c ∉ cols.map normName :=
      fun hmem => hna.2.2 hmem (List.mem_singleton.mpr rfl)
    rw [normalizeCols_concat, ih hna.1, insertLast, if_neg, List.map_append]
    · rfl
    · intro hany
      obtain ⟨p, hp, hpk⟩ := List.any_eq_true.mp hany
      obtain ⟨a, ha, rfl⟩ := List.mem_map.mp hp
      exact hnotin (List.mem_map.mpr ⟨a, ha, by simpa using hpk⟩)

theorem filterMap_pair_eq_filter (cols : List String) :
    (cols.map (fun c => (normName c, c))).filterMap (fun p =>
      if excluded.contains p.1 then none
      else if strContains p.1 "mvrv" then some p.2 else none)
    = cols.filter (fun c =>
        !(excluded.contains (normName c)) && strContains (normName c) "mvrv") := by
  induction cols with
  | nil => rfl
  | cons c cols ih =>
    simp only [List.map_cons, List.filterMap_cons, List.filter_cons]
    by_cases h1 : (excluded.contains (normName c)) = true
    · have hf : (if excluded.contains (normName c) then (none : Option String)
          else if strContains (normName c) "mvrv" then some c else none) = none := if_pos h1
      have hc1 : (!(excluded.contains (normName c)) && strContains (normName c) "mvrv")
          = false := by
        rw [h1]
        rfl
      rw [hf, hc1]
      simpa using ih
    · have hb1 : excluded.contains (normName c) = false := by
        cases hcc : excluded.contains (normName c) with
        | false => rfl
        | true => exact absurd hcc h1
      by_cases h2 : (strContains (normName c) "mvrv") = true
      · have hf : (if excluded.contains (normName c) then (none : Option String)
            else if strContains (normName c) "mvrv" then some c else none) = some c := by
          rw [if_neg h1, if_pos h2]
        have hp : (!(excluded.contains (normName c)) && strContains (normName c) "mvrv")
            = true := by
          rw [hb1, h2]
          rfl
        rw [hf, hp]
        simpa using ih
      · have hb2 : strContains (normName c) "mvrv" = false := by
          cases hcc : strContains (normName c) "mvrv" with
          | false => rfl
          | true => exact absurd hcc h2
        have hf : (if excluded.contains (normName c) then (none : Option String)
            else if strContains (normName c) "mvrv" then some c else none) = none := by
          rw [if_neg h1, if_neg h2]
        have hp : (!(excluded.contains (normName c)) && strContains (normName c) "mvrv")
            = false := by
          rw [hb2]
          simp
        rw [hf, hp]
        simpa using ih

/-- With distinct normalized names, the code's candidate list equals the
spec's candidate list (original column order, filtered). -/
theorem mvrvCandidates_eq_spec {cols : List String} (h : (cols.map normName).Nodup) :
    mvrvCandidates cols = mvrvCandidatesSpec cols := by
  rw [mvrvCandidates, normalizeCols_eq_map h, filterMap_pair_eq_filter, mvrvCandidatesSpec]

theorem find?_map_pair (cols : List String) :
    (cols.map (fun c => (normName c, c))).find? (fun p => !(excluded.contains p.1))
    = (cols.find? (fun c => !(excluded.contains (normName c)))).map
        (fun c => (normName c, c)) := by
  induction cols with
  | nil => rfl
  | cons c cols ih =>
    simp only [List.map_cons, List.find?_cons]
    cases hb : (!(excluded.contains (normName c))) with
    | true => simp
    | false => simpa using ih

/-- C4 (counterexample): with columns `a_mvrv, b_mvrv, A_MVRV` (the first and
third share the normalized name `a_mvrv`), every column is an mvrv candidate
and none is preferred, yet the resolver returns `A_MVRV` — not the first
candidate in original column order, which is `a_mvrv`: the dict keeps the
first-occurrence position but stores the later column. -/
theorem c4_preference_order_counterexample :
    pickMvrvColumn ["a_mvrv", "b_mvrv", "A_MVRV"] = .ok "A_MVRV"
    ∧ (mvrvCandidatesSpec ["a_mvrv", "b_mvrv", "A_MVRV"]).find? prefersShort = none
    ∧ (mvrvCandidatesSpec ["a_mvrv", "b_mvrv", "A_MVRV"]).headD "" = "a_mvrv"
    ∧ ("A_MVRV" : String) ≠ "a_mvrv" := by decide

/-- C4 (amended): when no two columns share a normalized name and at least one
mvrv candidate exists, the resolver returns the first candidate (in original
column order) whose normalized name contains `short` or `sth`, and otherwise
the first candidate in original column order. -/
theorem c4_preference_order (cols : List String) (hnd : (cols.map normName).Nodup)
    (hne : mvrvCandidatesSpec cols ≠ []) :
    pickMvrvColumn cols = .ok
      (((mvrvCandidatesSpec cols).find? prefersShort).getD
        ((mvrvCandidatesSpec cols).headD "")) := by
  rw [pickMvrvColumn, mvrvCandidates_eq_spec hnd]
  cases hc : mvrvCandidatesSpec cols with
  | nil =>
    rw [hc] at hne
    exact absurd rfl hne
  | cons c0 rest =>
    cases hf : (c0 :: rest).find? prefersShort with
    | some p =>
      dsimp only
      have hp : prefersShort p = true := List.find?_some hf
      have hpne : p ≠ "" := by
        intro h0
        subst h0
        exact absurd hp (by decide)
      rw [if_neg hpne]
      simp
    | none =>
      dsimp only
      simp

/-- C4 (witness): the amended theorem applied to the spec's own example table
`Date, mvrv_30d, short_term_holder_mvrv`. -/
theorem c4_preference_order_witness :
    mvrvCandidatesSpec ["Date", "mvrv_30d", "short_term_holder_mvrv"] ≠ []
    ∧ pickMvrvColumn ["Date", "mvrv_30d", "short_term_holder_mvrv"]
        = .ok "short_term_holder_mvrv" := by
  refine ⟨by decide, ?_⟩
  have h := c4_preference_order ["Date", "mvrv_30d", "short_term_holder_mvrv"]
    (by decide) (by decide)
  rw [h]
  decide

/-- C5 (counterexample): with columns `a␣` (trailing space), `b`, `a` — the
first and third share the normalized name `a` — no column name contains
`mvrv`; the first non-excluded column in original order is `a␣`, but the
resolver returns the column `a`: the dict entry at the first position stores
the later duplicate. -/
theorem c5_fallback_counterexample :
    (∀ c ∈ ["a ", "b", "a"], strContains (normName c) "mvrv" = false)
    ∧ pickMvrvColumn ["a ", "b", "a"] = .ok "a"
    ∧ ["a ", "b", "a"].find? (fun c => !(excluded.contains (normName c))) = some "a "
    ∧ ("a" : String) ≠ "a " := by decide

/-- C5 (amended): when no column's normalized name contains `mvrv`, then
(1) provided no two columns share a normalized name, the resolver returns the
first column in original order whose normalized name is not excluded, or
fails with the column-resolution error if there is none; and (2) whenever
every column's normalized name is in the exclusion set, the resolver fails
with the column-resolution error. -/
theorem c5_fallback (cols : List String)
    (hnomvrv : ∀ c ∈ cols, strContains (normName c) "mvrv" = false) :
    ((cols.map normName).Nodup →
      pickMvrvColumn cols = match cols.find? (fun c => !(excluded.contains (normName c))) with
        | some c => .ok c
        | none => .error .columnResolution)
    ∧ ((∀ c ∈ cols, excluded.contains (normName c) = true) →
      pickMvrvColumn cols = .error .columnResolution) := by
  have hcand : mvrvCandidates cols = [] := by
    rw [mvrvCandidates, List.filterMap_eq_nil_iff]
    intro p hp
    have hp' : (p.1, p.2) ∈ normalizeCols cols := by
      rw [Prod.mk.eta]
      exact hp
    have hmm := mem_normalizeCols hp'
    by_cases h1 : (excluded.contains p.1) = true
    · rw [if_pos h1]
    · rw [if_neg h1, if_neg]
      rw [← hmm.1]
      simp [hnomvrv p.2 hmm.2]
  constructor
  · intro hnd
    rw [pickMvrvColumn, hcand]
    dsimp only
    rw [normalizeCols_eq_map hnd, find?_map_pair]
    cases hfind : cols.find? (fun c => !(excluded.contains (normName c))) with
    | some c => rfl
    | none => rfl
  · intro hall
    have hfnone : (normalizeCols cols).find? (fun p => !(excluded.contains p.1)) = none := by
      rw [List.find?_eq_none]
      intro p hp
      have hp' : (p.1, p.2) ∈ normalizeCols cols := by
        rw [Prod.mk.eta]
        exact hp
      have hmm := mem_normalizeCols hp'
      have hkey := hall p.2 hmm.2
      rw [hmm.1] at hkey
      have hmem : p.1 ∈ excluded := by simpa using hkey
      simp [hmem]
    rw [pickMvrvColumn, hcand]
    dsimp only
    rw [hfnone]

/-- C5 (witness): part (1) applied to the table `Date, Value, Price` (the
fallback returns `Value`) and part (2) applied to the spec's example table
`Date, Price, MarketCap` (all excluded, resolution fails). -/
theorem c5_fallback_witness :
    pickMvrvColumn ["Date", "Value", "Price"] = .ok "Value"
    ∧ pickMvrvColumn ["Date", "Price", "MarketCap"] = .error .columnResolution := by
  constructor
  · have h := (c5_fallback ["Date", "Value", "Price"] (by decide)).1 (by decide)
    rw [h]
    decide
  · exact (c5_fallback ["Date", "Price", "MarketCap"] (by decide)).2 (by decide)

theorem filterMap_eq_singleton_of_unique {α β : Type} [DecidableEq α] {l : List α}
    {f : α → Option β} {p₀ : α} {b : β} (hmem : p₀ ∈ l) (hnd : l.Nodup)
    (hf : ∀ p ∈ l, f p = if p = p₀ then some b else none) :
    l.filterMap f = [b] := by
  induction l with
  | nil => simp at hmem
  | cons a l ih =>
    have hna := List.nodup_cons.mp hnd
    rcases List.mem_cons.mp hmem with rfl | hmem'
    · have hfa : f p₀ = some b := by
        rw [hf p₀ (List.mem_cons_self p₀ l), if_pos rfl]
      rw [List.filterMap_cons_some hfa]
      have hrest : l.filterMap f = [] := by
        rw [List.filterMap_eq_nil_iff]
        intro x hx
        rw [hf x (List.mem_cons_of_mem _ hx), if_neg]
        intro hxa
        exact hna.1 (hxa ▸ hx)
      rw [hrest]
    · have ha : a ≠ p₀ := fun h => hna.1 (h ▸ hmem')
      have hfa : f a = none := by
        rw [hf a (List.mem_cons_self a l), if_neg ha]
      rw [List.filterMap_cons_none hfa]
      exact ih hmem' hna.2 (fun p hp => hf p (List.mem_cons_of_mem _ hp))

/-- C1 (counterexample): the table `mvrv, sth_mvrv` contains a column whose
normalized name is exactly `mvrv`, yet the resolver returns `sth_mvrv`: the
short/sth preference outranks the exact name. -/
theorem c1_exact_mvrv_counterexample :
    normName "mvrv" = "mvrv"
    ∧ "mvrv" ∈ ["mvrv", "sth_mvrv"]
    ∧ pickMvrvColumn ["mvrv", "sth_mvrv"] = .ok "sth_mvrv"
    ∧ ("sth_mvrv" : String) ≠ "mvrv" := by decide

/-- C1 (amended): if the table contains a column whose normalized name is
exactly `mvrv` and no other column's normalized name contains the substring
`mvrv`, the resolver returns that column. -/
theorem c1_exact_mvrv (cols : List String) (c : String) (hc : c ∈ cols)
    (hnorm : normName c = "mvrv")
    (huniq : ∀ c' ∈ cols, c' ≠ c → strContains (normName c') "mvrv" = false) :
    pickMvrvColumn cols = .ok c := by
  have hlk : lookupKV (normalizeCols cols) "mvrv" = some c := by
    rw [lookupKV_normalizeCols]
    have hsome : (cols.reverse.find? (fun x => normName x == "mvrv")).isSome := by
      rw [List.find?_isSome]
      exact ⟨c, List.mem_reverse.mpr hc, by simp [hnorm]⟩
    obtain ⟨z, hz⟩ := Option.isSome_iff_exists.mp hsome
    have hzc : z = c := by
      by_contra hne
      have hzmem : z ∈ cols := List.mem_reverse.mp (List.mem_of_find?_eq_some hz)
      have hznorm : normName z = "mvrv" := by simpa using List.find?_some hz
      have hzf := huniq z hzmem hne
      rw [hznorm] at hzf
      exact absurd hzf (by decide)
    rw [hz, hzc]
  have hentry : ("mvrv", c) ∈ normalizeCols cols := mem_of_lookupKV_eq_some hlk
  have hcand : mvrvCandidates cols = [c] := by
    rw [mvrvCandidates]
    refine filterMap_eq_singleton_of_unique hentry
      ((keys_nodup_normalizeCols cols).of_map Prod.fst) ?_
    intro p hp
    have hp' : (p.1, p.2) ∈ normalizeCols cols := by
      rw [Prod.mk.eta]
      exact hp
    obtain ⟨hn, hmemc⟩ := mem_normalizeCols hp'
    by_cases hpc : p = ("mvrv", c)
    · rw [if_pos hpc, hpc]
      show (if excluded.contains "mvrv" then (none : Option String)
        else if strContains "mvrv" "mvrv" then some c else none) = some c
      rw [if_neg (by decide), if_pos (by decide)]
    · rw [if_neg hpc]
      have hp2 : p.2 ≠ c := by
        intro h2
        apply hpc
        have hp1 : p.1 = "mvrv" := by
          rw [← hn, h2, hnorm]
        calc p = (p.1, p.2) := Prod.mk.eta.symm
        _ = ("mvrv", c) := by rw [hp1, h2]
      have hfalse := huniq p.2 hmemc hp2
      rw [hn] at hfalse
      by_cases h1 : (excluded.contains p.1) = true
      · rw [if_pos h1]
      · rw [if_neg h1, if_neg (by simp [hfalse])]
  rw [pickMvrvColumn, hcand]
  dsimp only
  have hpref : prefersShort c = false := by
    rw [prefersShort, hnorm]
    decide
  rw [show ([c].find? prefersShort) = none from by simp [List.find?_cons, hpref]]

/-- C1 (witness): the amended theorem applied to the table `Date, MVRV`. -/
theorem c1_exact_mvrv_witness : pickMvrvColumn ["Date", "MVRV"] = .ok "MVRV" :=
  c1_exact_mvrv ["Date", "MVRV"] "MVRV" (by decide) (by decide) (by decide)

/-- C6 (code evaluation at the failing input): a row whose date cell is
missing but whose metric cell is the number `1.5` still yields an output
record — with the date string `"nan"` — because `astype(str)` runs before
`dropna` and stringifies the missing date; the claim (and the `dropna`
subset, which lists the date column) require the row to be excluded.  A
well-formed row with all three cells is also evaluated for contrast. -/
theorem c6_row_eval :
    processRow false ⟨none, some "1.5", none⟩ = some ⟨"nan", mkRat 3 2, none⟩
    ∧ (⟨none, some "1.5", none⟩ : RowCells).dateCell = none
    ∧ processRow true ⟨some "2024-01-01", some "1.23", some "42000"⟩
        = some ⟨"2024-01-01", mkRat 123 100, some (mkRat 42000 1)⟩ := by decide
